import Mathlib

/-!
Verification of the ModEA adaptive evolution-strategy engine.

Shallow embedding of the repository's core:
* `Algorithms.py` — the generational engine `_BaseAlgorithm.__call__`
  (budget accounting, trace bookkeeping, sequential early stop) and the
  `localRestartAlgorithm` IPOP scheduler;
* `Parameters.py` — the adaptation rules (`oneFifthRule`,
  `adaptCovarianceMatrix`, `adaptCholeskyCovarianceMatrix`,
  `adaptActiveCovarianceMatrix`) and the degeneracy checks;
* `Sampling.py` — `MirroredSampling` and `OrthogonalSampling`.

Machine floats are modelled by exact numbers (`ℚ`, `ℝ`); the genuinely
float-specific predicates (`np.isfinite`, `np.linalg.cond`, reality of
eigenvalues) are abstracted as parameters of the model.
-/

namespace ModEA

open Matrix

/-! ### The generational engine: budget and trace bookkeeping

Model of `_BaseAlgorithm.__call__` (Algorithms.py 610-699) restricted to the
fields the claims speak about: `used_budget`, `len(sigma_over_time)` and
`len(fitness_over_time)`.  One generation spends `evals g ≥ 1` evaluations
(batch mode: exactly `lambda_`; sequential mode: between 1 and `lambda_`),
then the tracking block appends `gen_size = used_budget - len(fitness_over_time)`
entries to both traces, then the loop breaks if `used_budget >= budget`,
and otherwise the optional TPA block spends 2 more evaluations (capped at
`budget` when `sequential` is set).  The `localRestart` break exits with
exactly the state the next iteration would have started from, so omitting
it does not change the reachable exit states. -/

structure EngineState where
  used : ℕ
  sigmaLen : ℕ
  fitLen : ℕ
  deriving DecidableEq, Repr

/-- The TPA block of the main loop: `self.used_budget += 2`, then
`if self.used_budget > budget and parameters.sequential: self.used_budget = budget`. -/
def tpaUsed (tpa seq : Bool) (budget u1 : ℕ) : ℕ :=
  if tpa then (if seq ∧ budget < u1 + 2 then budget else u1 + 2) else u1

def engineRun (budget : ℕ) (tpa seq : Bool) (evals : ℕ → ℕ+) :
    ℕ → EngineState → EngineState
  | g, st =>
    if h : st.used < budget then
      -- mutate / evaluate: `self.used_budget += parameters.lambda_` (batch)
      -- or one `+= 1` per evaluated offspring (sequential)
      let u1 := st.used + (evals g : ℕ)
      -- `gen_size = self.used_budget - len(self.fitness_over_time)`
      let gsize := u1 - st.fitLen
      let s1 := st.sigmaLen + gsize
      let f1 := st.fitLen + gsize
      -- `if self.used_budget >= budget: break`
      if budget ≤ u1 then ⟨u1, s1, f1⟩
      else
        engineRun budget tpa seq evals (g + 1) ⟨tpaUsed tpa seq budget u1, s1, f1⟩
    else st
  termination_by g st => budget - st.used
  decreasing_by
    simp_wf
    have hp : 0 < ((evals g) : ℕ) := (evals g).pos
    simp only [tpaUsed]
    split <;> try split
    all_goals omega

/-! ### Sequential evaluation with early stop

Model of the sequential branch of the main evaluation loop
(Algorithms.py 632-648).  `fit i` is the fitness the `i`-th offspring gets
after mutation and evaluation, `best` is `self.best_individual.fitness` at
generation start (it is only updated after the loop), `len` is the offspring
count.  Returns the final `used_budget` and the number of offspring that
were mutated and evaluated. -/

def seqEval (fit : ℕ → ℚ) (best : ℚ) (cutoff budget len : ℕ) :
    ℕ → ℕ → Bool → ℕ × ℕ
  | i, used, imp =>
    if h : i < len then
      let used1 := used + 1
      let imp1 := if fit i < best then true else imp
      if cutoff ≤ i ∧ imp1 = true then (used1, i + 1)
      else if used1 = budget then (used1, i + 1)
      else seqEval fit best cutoff budget len (i + 1) used1 imp1
    else (used, i)
  termination_by i used imp => len - i
  decreasing_by omega

/-! ### The one-fifth success rule (Parameters.oneFifthRule, 66-86) -/

structure OneFifthState where
  n : ℕ
  bigN : ℕ
  success_history : List ℚ
  c : ℚ
  sigma : ℚ
  sigma_mean : ℚ
  deriving DecidableEq, Repr

def listMean (l : List ℚ) : ℚ := l.sum / l.length

def oneFifthRule (t : ℕ) (st : OneFifthState) : OneFifthState :=
  if t % st.n ≠ 0 then st
  else
    let success :=
      if t < st.bigN then listMean (st.success_history.take t)
      else listMean st.success_history
    let sigma1 :=
      if success < 1/5 then st.sigma * st.c
      else if 1/5 < success then st.sigma / st.c
      else st.sigma
    { st with sigma := sigma1, sigma_mean := sigma1 }

/-! ### Mirrored sampling (Sampling.MirroredSampling, 167-202)

The base sampler is modelled as the stream of vectors it would return;
`MirroredSampling` keeps a flag and a cached last sample. -/

structure MirroredState (n : ℕ) where
  mirror_next : Bool
  last_sample : Fin n → ℚ
  idx : ℕ

def mirroredNext (base : ℕ → Fin n → ℚ) (st : MirroredState n) :
    (Fin n → ℚ) × MirroredState n :=
  let mirror_next := st.mirror_next
  if mirror_next = false then
    let sample := base st.idx
    (sample, ⟨!mirror_next, sample, st.idx + 1⟩)
  else
    let sample := fun i => st.last_sample i * (-1)
    (sample, ⟨!mirror_next, st.last_sample, st.idx⟩)

def mirroredInit (n : ℕ) : MirroredState n := ⟨false, fun _ => 0, 0⟩

/-- State after `k` calls to `next()` on a fresh `MirroredSampling`. -/
def mirroredRun (base : ℕ → Fin n → ℚ) : ℕ → MirroredState n
  | 0 => mirroredInit n
  | k + 1 => (mirroredNext base (mirroredRun base k)).2

/-- Result of the `(k+1)`-st call to `next()` (0-indexed: call `k`). -/
def mirroredCall (base : ℕ → Fin n → ℚ) (k : ℕ) : Fin n → ℚ :=
  (mirroredNext base (mirroredRun base k)).1

/-! ### The IPOP restart scheduler (Algorithms.localRestartAlgorithm, 453-518)

`usedOf k` is the budget the `k`-th restart's engine run reports (always at
least 1: the engine evaluates at least one offspring when any budget is
left).  The list collects the `lambda_` used by each restart; after each
restart IPOP doubles `parameter_opts[...]`. -/

def ipopLambdas (usedOf : ℕ → ℕ+) : ℕ → ℕ → ℕ → List ℕ
  | k, budget, lam =>
    if h : 0 < budget then
      lam :: ipopLambdas usedOf (k + 1) (budget - (usedOf k : ℕ)) (lam * 2)
    else []
  termination_by k budget lam => budget
  decreasing_by
    simp_wf
    have hp : 0 < ((usedOf k) : ℕ) := (usedOf k).pos
    omega

/-! ### The adaptive parameter state (Parameters.py)

Scalars and matrix entries are modelled over `ℝ`; `np.sqrt` and `np.exp`
are `Real.sqrt` and `Real.exp`.  The genuinely float-specific numeric
predicates — `np.isfinite` (no `ℝ` value is non-finite), `np.linalg.cond`
and the eigendecomposition with its `np.isreal` test — are abstracted as
the `FloatChecks` environment; the theorems assume only what numpy
guarantees on the identity matrix (finite, condition number 1, real
eigenvalues). -/

abbrev Mat (m : ℕ) := Matrix (Fin m) (Fin m) ℝ
abbrev RowVec (m : ℕ) := Matrix (Fin 1) (Fin m) ℝ
abbrev ColVec (m : ℕ) := Matrix (Fin m) (Fin 1) ℝ

/-- All fields of `Parameters.__init__` that the adaptation strategies and
degeneracy checks read or write. -/
structure Params (m : ℕ) where
  sigma : ℝ
  sigma_mean : ℝ
  tau_c : ℝ
  C : Mat m
  B : Mat m
  D : Mat m
  s_mean : RowVec m
  A : Mat m
  A_inv : Mat m
  d : ℝ
  p_target : ℝ
  p_success : ℝ
  p_c : RowVec m
  c_p : ℝ
  c_cov : ℝ
  p_thresh : ℝ
  c_a : ℝ
  c : ℝ
  lambda_success : Bool
  last_z : RowVec m
  s : RowVec m
  fitness_history : List ℝ
  best_fitness : ℝ
  c_cov_pos : ℝ
  c_cov_neg : ℝ

/-- Abstract float-specific numeric primitives used by the degeneracy
checks: `np.isfinite(...).all()`, `np.linalg.cond`, and the composition
`np.isreal(np.sqrt(np.linalg.eig(C)[0])).all()` together with the two
components of the eigendecomposition. -/
structure FloatChecks (m : ℕ) where
  allFinite : Mat m → Bool
  cond : Mat m → ℝ
  eigVecs : Mat m → Mat m
  sqrtEig : Mat m → Mat m
  sqrtEigAllReal : Mat m → Bool

noncomputable def loBound : ℝ := ((10 : ℝ) ^ (16 : ℕ))⁻¹

noncomputable def hiBound : ℝ := (10 : ℝ) ^ (16 : ℕ)

/-- `10**(-16) < x < 10**16`. -/
abbrev sigmaRange (x : ℝ) : Prop := loBound < x ∧ x < hiBound

/-- `np.linalg.norm` of a `(1, n)` array, `sqrt` of the sum of squares. -/
noncomputable def rowNorm (v : RowVec m) : ℝ := Real.sqrt (∑ j, v 0 j ^ 2)

/-- `np.linalg.norm` of an `(n, 1)` array. -/
noncomputable def colNorm (w : ColVec m) : ℝ := Real.sqrt (∑ i, w i 0 ^ 2)

/-- `Parameters.checkDegenerated` (Parameters.py 190-218). -/
noncomputable def checkDegenerated (chk : FloatChecks m) (st : Params m) : Params m :=
  if chk.allFinite st.C = false then
    { st with C := 1, B := 1, D := 1, sigma_mean := 1 }
  else if ¬ sigmaRange st.sigma_mean then
    { st with C := 1, B := 1, D := 1, sigma_mean := 1 }
  else
    -- `self.D, self.B = np.linalg.eig(self.C); self.D = np.sqrt(self.D)`
    let st1 := { st with D := chk.sqrtEig st.C, B := chk.eigVecs st.C }
    if chk.sqrtEigAllReal st.C = false then
      { st1 with C := 1, B := 1, D := 1, sigma_mean := 1 }
    else st1

/-- `Parameters.checkCholeskyDegenerated` (Parameters.py 221-246). -/
noncomputable def checkCholeskyDegenerated (chk : FloatChecks m) (st : Params m) :
    Params m :=
  if chk.allFinite st.A = false then
    { st with sigma_mean := 1, p_success := st.p_target, A := 1, p_c := 0 }
  else if ¬ (loBound < chk.cond st.A ∧ chk.cond st.A < hiBound) then
    { st with sigma_mean := 1, p_success := st.p_target, A := 1, p_c := 0 }
  else if ¬ sigmaRange st.sigma_mean then
    { st with sigma_mean := 1, p_success := st.p_target, A := 1, p_c := 0 }
  else st

/-- `Parameters.adaptCovarianceMatrix` (Parameters.py 109-119); numpy's
`self.s_mean.T * self.s_mean` broadcasts a `(n,1) * (1,n)` elementwise
product into the outer-product matrix. -/
noncomputable def adaptCovarianceMatrix (chk : FloatChecks m) (st : Params m) :
    Params m :=
  let tau_c_inv := 1 / st.tau_c
  let C1 := (1 - tau_c_inv) • st.C
    + tau_c_inv • Matrix.of (fun i j => st.s_mean 0 i * st.s_mean 0 j)
  checkDegenerated chk { st with C := C1 }

/-- `Parameters.adaptCholeskyCovarianceMatrix` (Parameters.py 122-143). -/
noncomputable def adaptCholeskyCovarianceMatrix (chk : FloatChecks m) (st : Params m) :
    Params m :=
  let p1 := (1 - st.c_p) * st.p_success + st.c_p * (if st.lambda_success then 1 else 0)
  let sigma1 := st.sigma
    * Real.exp ((p1 - (st.p_target / (1 - st.p_target)) * (1 - p1)) / st.d)
  let st1 := { st with p_success := p1, sigma := sigma1, sigma_mean := sigma1 }
  let st2 :=
    if st1.lambda_success = true ∧ st1.p_success < st1.p_thresh then
      let z_squared := rowNorm st1.last_z ^ 2
      let c_a_squared := st1.c_a ^ 2
      let part_1 := st1.c_a / z_squared
      let part_2 := Real.sqrt (1 + ((1 - c_a_squared) * z_squared) / c_a_squared) - 1
      let part_3 := (st1.A * st1.last_zᵀ) * st1.last_z
      { st1 with A := st1.c_a • st1.A + (part_1 * part_2) • part_3 }
    else st1
  checkCholeskyDegenerated chk st2

/-- The `lambda_success` branch of `adaptActiveCovarianceMatrix`
(Parameters.py 151-165).  Note on the `self.s` update: numpy broadcasts the
`(1,n) + (n,1)` sum; the `(n,1)` term is transposed here so that the field
keeps its declared row shape — for `n = 1`, the shape all reachable
counterexamples use, the two readings coincide. -/
noncomputable def activePositiveStep {m : ℕ} (st : Params m) : Params m :=
  if st.lambda_success = true then
    let p1 := (1 - st.c_p) * st.p_success + st.c_p
    let s1 := (1 - st.c) • st.s
      + Real.sqrt (st.c * (2 - st.c)) • ((st.A * st.last_zᵀ)ᵀ)
    let w := st.A_inv * s1ᵀ
    let w_norm_squared := colNorm w ^ 2
    let a := Real.sqrt (1 - st.c_cov_pos)
    let b := (a / w_norm_squared)
      * (Real.sqrt (1 + w_norm_squared * st.c_cov_pos / (1 - st.c_cov_pos)) - 1)
    { st with
      p_success := p1
      s := s1
      A := a • st.A + b • ((st.A * w) * wᵀ)
      A_inv := (1 / a) • st.A_inv
        - (b / (a ^ 2 + a * b * w_norm_squared)) • (w * (wᵀ * st.A_inv)) }
  else
    { st with p_success := st.p_success * (1 - st.c_p) }

/-- The step-size update between the two branches of
`adaptActiveCovarianceMatrix` (Parameters.py 167-168). -/
noncomputable def activeSigmaStep {m : ℕ} (st : Params m) : Params m :=
  let sigma1 := st.sigma
    * Real.exp ((1 / st.d) * ((st.p_success - st.p_target) / (1 - st.p_target)))
  { st with sigma := sigma1, sigma_mean := sigma1 }

/-- The negative Cholesky update of `adaptActiveCovarianceMatrix`
(Parameters.py 170-185).  The `A_inv` line translates numpy's broadcasting
literally: the matrix product sits inside the denominator, so `b` is
divided elementwise by `a² + a·b·‖w‖²·(w·(wᵀ·A_inv))`. -/
noncomputable def activeNegativeStep {m : ℕ} (st : Params m) : Params m :=
  if 4 < st.fitness_history.length ∧ st.fitness_history.getLastD 0 < st.best_fitness then
    let z_squared := rowNorm st.last_z ^ 2
    let c_cov_neg :=
      if 1 < st.c_cov_neg * (2 * z_squared - 1) then 1 / (2 * z_squared - 1)
      else (0.4 : ℝ) / ((m : ℝ) ^ (1.6 : ℝ) + 1)
    let w := st.A_inv * st.sᵀ
    let a := Real.sqrt (1 + c_cov_neg)
    let b := (a / z_squared)
      * (Real.sqrt (1 + (c_cov_neg * z_squared) / (1 + c_cov_neg)) - 1)
    { st with
      c_cov_neg := c_cov_neg
      A := a • st.A + b • ((st.A * w) * wᵀ)
      A_inv := Matrix.of (fun i j =>
        (1 / a) * st.A_inv i j
          - b / (a ^ 2 + a * b * (colNorm w ^ 2) * ((w * (wᵀ * st.A_inv)) i j))) }
  else st

/-- `Parameters.adaptActiveCovarianceMatrix` (Parameters.py 146-187). -/
noncomputable def adaptActiveCovarianceMatrix (chk : FloatChecks m) (st : Params m) :
    Params m :=
  checkCholeskyDegenerated chk (activeNegativeStep (activeSigmaStep (activePositiveStep st)))

/-- The canonical scoping of the rank-one `A_inv` update, per the spec's
positive-update pattern: the scalar `b/(a² + a·b·‖w‖²)` multiplies the whole
rank-one matrix `w·(wᵀ·A_inv)`.  The auxiliary quantities are those of the
negative-update branch. -/
noncomputable def canonicalNegativeAinv {m : ℕ} (st : Params m) : Mat m :=
  let z_squared := rowNorm st.last_z ^ 2
  let c_cov_neg :=
    if 1 < st.c_cov_neg * (2 * z_squared - 1) then 1 / (2 * z_squared - 1)
    else (0.4 : ℝ) / ((m : ℝ) ^ (1.6 : ℝ) + 1)
  let w := st.A_inv * st.sᵀ
  let a := Real.sqrt (1 + c_cov_neg)
  let b := (a / z_squared)
    * (Real.sqrt (1 + (c_cov_neg * z_squared) / (1 + c_cov_neg)) - 1)
  (1 / a) • st.A_inv - (b / (a ^ 2 + a * b * (colNorm w ^ 2))) • (w * (wᵀ * st.A_inv))

/-- The elementwise reading of the negative `A_inv` update, per numpy's
broadcasting of `b / (a**2 + a*b*(norm(w)**2) * M)`. -/
noncomputable def elementwiseNegativeAinv {m : ℕ} (st : Params m) : Mat m :=
  let z_squared := rowNorm st.last_z ^ 2
  let c_cov_neg :=
    if 1 < st.c_cov_neg * (2 * z_squared - 1) then 1 / (2 * z_squared - 1)
    else (0.4 : ℝ) / ((m : ℝ) ^ (1.6 : ℝ) + 1)
  let w := st.A_inv * st.sᵀ
  let a := Real.sqrt (1 + c_cov_neg)
  let b := (a / z_squared)
    * (Real.sqrt (1 + (c_cov_neg * z_squared) / (1 + c_cov_neg)) - 1)
  Matrix.of (fun i j =>
    (1 / a) * st.A_inv i j
      - b / (a ^ 2 + a * b * (colNorm w ^ 2) * ((w * (wᵀ * st.A_inv)) i j)))

/-- Validity of the full-matrix covariance representation per
`checkDegenerated`: finite entries, in-range `sigma_mean`, real (square-root)
eigenvalues. -/
noncomputable def cmsaValid (chk : FloatChecks m) (st : Params m) : Prop :=
  chk.allFinite st.C = true ∧ sigmaRange st.sigma_mean ∧
    chk.sqrtEigAllReal st.C = true

/-- Validity of the Cholesky representation per `checkCholeskyDegenerated`:
finite entries, in-range condition number, in-range `sigma_mean`. -/
noncomputable def cholValid (chk : FloatChecks m) (st : Params m) : Prop :=
  chk.allFinite st.A = true ∧
    (loBound < chk.cond st.A ∧ chk.cond st.A < hiBound) ∧
    sigmaRange st.sigma_mean

/-- The reset state claimed for the full-matrix representation. -/
def cmsaResetState (st : Params m) : Prop :=
  st.C = 1 ∧ st.B = 1 ∧ st.D = 1 ∧ st.sigma_mean = 1 ∧
    st.p_success = st.p_target ∧ st.p_c = 0

/-- The reset state of the Cholesky representation. -/
def cholResetState (st : Params m) : Prop :=
  st.A = 1 ∧ st.sigma_mean = 1 ∧ st.p_success = st.p_target ∧ st.p_c = 0

/-- A concrete `n = 1` state that reaches the negative-update branch of
`adaptActiveCovarianceMatrix`. -/
noncomputable def negDemoState : Params 1 where
  sigma := 1
  sigma_mean := 1
  tau_c := 1
  C := 1
  B := 1
  D := 1
  s_mean := 0
  A := 1
  A_inv := Matrix.of fun _ _ => 2
  d := 1
  p_target := 2/11
  p_success := 2/11
  p_c := 0
  c_p := 1/12
  c_cov := 0
  p_thresh := 0.44
  c_a := 1
  c := 0.817
  lambda_success := false
  last_z := Matrix.of fun _ _ => Real.sqrt 18
  s := Matrix.of fun _ _ => 1
  fitness_history := [0, 0, 0, 0, 0]
  best_fitness := 1
  c_cov_pos := 0
  c_cov_neg := 0

/-- A concrete degenerate state: `sigma_mean = 10^17` is out of range. -/
noncomputable def degenDemoState : Params 1 :=
  { negDemoState with sigma_mean := (10 : ℝ) ^ (17 : ℕ) }

/-- A trivial concrete `FloatChecks` environment (everything finite, unit
condition number, real eigenvalues). -/
noncomputable def chkDemo : FloatChecks 1 where
  allFinite := fun _ => true
  cond := fun _ => 1
  eigVecs := fun M => M
  sqrtEig := fun M => M
  sqrtEigAllReal := fun _ => true

/-! ### Orthogonal sampling (Sampling.OrthogonalSampling, 96-164)

`v` is the stream of base-sampler draws for the batch (`__generateSamples`
records their lengths before orthonormalization), `rep` the stream of
replacement draws used when Gram-Schmidt produces a zero vector.  Vectors
over `ℝ` have no NaN, so the retry loop of `__generateSamples` never
re-enters. -/

abbrev Vec (m : ℕ) := Fin m → ℝ

noncomputable def dotp (v w : Vec m) : ℝ := ∑ i, v i * w i

/-- `np.linalg.norm`. -/
noncomputable def vnorm (v : Vec m) : ℝ := Real.sqrt (∑ i, v i ^ 2)

/-- One projection removal of `__gramSchmidt`:
`vectors[i] = vec_i - vec_j * (dot(vec_i.T, vec_j) / norm(vec_j)**2)`. -/
noncomputable def gsStep (u vj : Vec m) : Vec m :=
  u - ((dotp u vj) / vnorm vj ^ 2) • vj

/-- `gsAux v i j` is the state of `vectors[i]` in `__gramSchmidt` after the
inner loop has removed the projections onto `vectors[0] .. vectors[j-1]`
(each already fully processed, since the loops run in index order). -/
noncomputable def gsAux (v : ℕ → Vec m) : ℕ → ℕ → Vec m
  | i, 0 => v i
  | i, j + 1 =>
    if j < i then gsStep (gsAux v i j) (gsAux v j j) else gsAux v i j
  termination_by i j => (i, j)
  decreasing_by
    all_goals simp_wf
    all_goals first
      | exact Prod.Lex.left _ _ (by omega)
      | exact Prod.Lex.right _ (by omega)

/-- `vectors[i]` after the double loop of `__gramSchmidt`. -/
noncomputable def gsFinal (v : ℕ → Vec m) (i : ℕ) : Vec m := gsAux v i i

/-- The normalization pass of `__gramSchmidt`: zero vectors are replaced by
a normalized fresh draw, the rest are divided by their norm. -/
noncomputable def normedVec (v rep : ℕ → Vec m) (i : ℕ) : Vec m :=
  if vnorm (gsFinal v i) = 0 then fun idx => rep i idx / vnorm (rep i)
  else fun idx => gsFinal v i idx / vnorm (gsFinal v i)

/-- `samples[i] *= lengths[i]` — the vector served by `next()` for
`i < min lambda_ n`. -/
noncomputable def servedVec (v rep : ℕ → Vec m) (i : ℕ) : Vec m :=
  fun idx => normedVec v rep i idx * vnorm (v i)

/-- Base draws for the degenerate batch: the same vector twice. -/
noncomputable def vDemo : ℕ → Vec 2 := fun _ => fun idx => if idx = 0 then 1 else 0

/-- Replacement draws for the degenerate batch. -/
noncomputable def repDemo : ℕ → Vec 2 := fun _ => fun idx => if idx = 0 then 3 else 4

/-- Base draws for a well-behaved batch: the two standard basis vectors. -/
noncomputable def vOrth : ℕ → Vec 2 :=
  fun k idx => if k = 0 then (if idx = 0 then 1 else 0) else (if idx = 1 then 1 else 0)

/-! ### Unfolding lemmas for `engineRun` -/

lemma tpaUsed_false (seq : Bool) (budget u1 : ℕ) : tpaUsed false seq budget u1 = u1 := rfl

lemma tpaUsed_bounds (tpa seq : Bool) (budget u1 : ℕ) (h2 : ¬ budget ≤ u1) :
    u1 ≤ tpaUsed tpa seq budget u1 ∧ tpaUsed tpa seq budget u1 ≤ u1 + 2 := by
  unfold tpaUsed
  split <;> try split
  all_goals omega

lemma engineRun_exit {budget : ℕ} {tpa seq : Bool} {evals : ℕ → ℕ+} {g : ℕ}
    {st : EngineState} (h : ¬ st.used < budget) :
    engineRun budget tpa seq evals g st = st := by
  rw [engineRun]; exact dif_neg h

lemma engineRun_break {budget : ℕ} {tpa seq : Bool} {evals : ℕ → ℕ+} {g : ℕ}
    {st : EngineState} (h : st.used < budget)
    (h2 : budget ≤ st.used + (evals g : ℕ)) :
    engineRun budget tpa seq evals g st =
      ⟨st.used + (evals g : ℕ),
       st.sigmaLen + (st.used + (evals g : ℕ) - st.fitLen),
       st.fitLen + (st.used + (evals g : ℕ) - st.fitLen)⟩ := by
  rw [engineRun, dif_pos h, if_pos h2]

lemma engineRun_step {budget : ℕ} {tpa seq : Bool} {evals : ℕ → ℕ+} {g : ℕ}
    {st : EngineState} (h : st.used < budget)
    (h2 : ¬ budget ≤ st.used + (evals g : ℕ)) :
    engineRun budget tpa seq evals g st =
      engineRun budget tpa seq evals (g + 1)
        ⟨tpaUsed tpa seq budget (st.used + (evals g : ℕ)),
         st.sigmaLen + (st.used + (evals g : ℕ) - st.fitLen),
         st.fitLen + (st.used + (evals g : ℕ) - st.fitLen)⟩ := by
  rw [engineRun, dif_pos h, if_neg h2]

/-- Loop invariant of the no-TPA engine: whenever a generation starts with
both trace lengths equal to the used budget, it also ends that way. -/
lemma engineRun_no_tpa_traces {budget : ℕ} {seq : Bool} {evals : ℕ → ℕ+} :
    ∀ (g : ℕ) (st : EngineState), st.fitLen = st.used → st.sigmaLen = st.used →
      (engineRun budget false seq evals g st).fitLen
          = (engineRun budget false seq evals g st).used ∧
        (engineRun budget false seq evals g st).sigmaLen
          = (engineRun budget false seq evals g st).used := by
  intro g st
  induction g, st using engineRun.induct budget false seq evals with
  | case1 g st h u1 h2 =>
    intro h3 h4
    rw [engineRun_break h h2]
    constructor <;> (dsimp only; omega)
  | case2 g st h u1 gsize s1 f1 h2 ih =>
    intro h3 h4
    rw [engineRun_step h h2]
    exact ih (by dsimp only [tpaUsed_false]; omega) (by dsimp only [tpaUsed_false]; omega)
  | case3 g st h =>
    intro h3 h4
    rw [engineRun_exit h]
    exact ⟨h3, h4⟩

/-- Loop invariant of the TPA engine: the used budget can run ahead of the
trace lengths by at most the 2 TPA evaluations of the previous generation. -/
lemma engineRun_tpa_traces {budget : ℕ} {tpa seq : Bool} {evals : ℕ → ℕ+} :
    ∀ (g : ℕ) (st : EngineState),
      st.fitLen ≤ st.used → st.used ≤ st.fitLen + 2 → st.sigmaLen = st.fitLen →
      (engineRun budget tpa seq evals g st).fitLen
          ≤ (engineRun budget tpa seq evals g st).used ∧
        (engineRun budget tpa seq evals g st).used
          ≤ (engineRun budget tpa seq evals g st).fitLen + 2 ∧
        (engineRun budget tpa seq evals g st).sigmaLen
          = (engineRun budget tpa seq evals g st).fitLen := by
  intro g st
  induction g, st using engineRun.induct budget tpa seq evals with
  | case1 g st h u1 h2 =>
    intro h3 h4 h5
    rw [engineRun_break h h2]
    refine ⟨?_, ?_, ?_⟩ <;> (dsimp only; omega)
  | case2 g st h u1 gsize s1 f1 h2 ih =>
    intro h3 h4 h5
    rw [engineRun_step h h2]
    obtain ⟨hb1, hb2⟩ := tpaUsed_bounds tpa seq budget (st.used + (evals g : ℕ)) h2
    refine ih ?_ ?_ ?_
    · show st.fitLen + (st.used + (evals g : ℕ) - st.fitLen)
        ≤ tpaUsed tpa seq budget (st.used + (evals g : ℕ))
      omega
    · show tpaUsed tpa seq budget (st.used + (evals g : ℕ))
        ≤ st.fitLen + (st.used + (evals g : ℕ) - st.fitLen) + 2
      omega
    · show st.sigmaLen + (st.used + (evals g : ℕ) - st.fitLen)
        = st.fitLen + (st.used + (evals g : ℕ) - st.fitLen)
      omega
  | case3 g st h =>
    intro h3 h4 h5
    rw [engineRun_exit h]
    exact ⟨h3, by omega, h5⟩

/-- Batch-mode budget characterization: starting from a used budget that is a
multiple of `lambda_`, the engine stops at the least multiple of `lambda_`
that reaches `budget`. -/
lemma engineRun_batch_used {budget : ℕ} {seq : Bool} {lam : ℕ+} :
    ∀ (g : ℕ) (st : EngineState), st.used % (lam : ℕ) = 0 →
      st.used < budget + (lam : ℕ) →
      (engineRun budget false seq (fun _ => lam) g st).used % (lam : ℕ) = 0 ∧
        budget ≤ (engineRun budget false seq (fun _ => lam) g st).used ∧
        (engineRun budget false seq (fun _ => lam) g st).used < budget + (lam : ℕ) := by
  intro g st
  induction g, st using engineRun.induct budget false seq (fun _ => lam) with
  | case1 g st h u1 h2 =>
    intro h3 h4
    rw [engineRun_break h h2]
    refine ⟨?_, ?_, ?_⟩ <;> dsimp only
    · rw [Nat.add_mod_right]
      exact h3
    · omega
    · omega
  | case2 g st h u1 gsize s1 f1 h2 ih =>
    intro h3 h4
    rw [engineRun_step h h2]
    refine ih ?_ ?_
    · dsimp only [tpaUsed_false]
      rw [Nat.add_mod_right]
      exact h3
    · dsimp only [tpaUsed_false]
      omega
  | case3 g st h =>
    intro h3 h4
    rw [engineRun_exit h]
    exact ⟨h3, by omega, h4⟩

/-- C2, amended: with sequential mode disabled and batch (parallel)
evaluation, the engine's final `used_budget` is the least multiple of
`lambda_` that is `≥ budget`; in particular it equals `budget` exactly
when `lambda_` divides `budget`, and overshoots otherwise. -/
theorem batch_used_budget_least_multiple (budget : ℕ) (seq : Bool) (lam : ℕ+) :
    (engineRun budget false seq (fun _ => lam) 0 ⟨0, 0, 0⟩).used % (lam : ℕ) = 0 ∧
      budget ≤ (engineRun budget false seq (fun _ => lam) 0 ⟨0, 0, 0⟩).used ∧
      (engineRun budget false seq (fun _ => lam) 0 ⟨0, 0, 0⟩).used < budget + (lam : ℕ) ∧
      ((engineRun budget false seq (fun _ => lam) 0 ⟨0, 0, 0⟩).used = budget ↔
        (lam : ℕ) ∣ budget) := by
  have hp := lam.pos
  obtain ⟨hmod, hge, hlt⟩ :=
    @engineRun_batch_used budget seq lam 0 ⟨0, 0, 0⟩ (by simp)
      (by show (0 : ℕ) < budget + (lam : ℕ); omega)
  refine ⟨hmod, hge, hlt, ?_⟩
  constructor
  · intro h
    rw [← h]
    exact Nat.dvd_of_mod_eq_zero hmod
  · intro h
    have hdvd := Nat.dvd_of_mod_eq_zero hmod
    have h2 := Nat.dvd_sub' hdvd h
    have h3 := Nat.eq_zero_of_dvd_of_lt h2 (by omega)
    omega

/-- C2, counterexample: `budget = 5`, `lambda_ = 2`, batch mode — the engine
reports `used_budget = 6 ≠ 5`. -/
theorem batch_used_budget_overshoots :
    (engineRun 5 false false (fun _ => (⟨2, by norm_num⟩ : ℕ+)) 0 ⟨0, 0, 0⟩).used ≠ 5 := by
  have e1 : engineRun 5 false false (fun _ => (⟨2, by norm_num⟩ : ℕ+)) 0 ⟨0, 0, 0⟩
      = engineRun 5 false false (fun _ => (⟨2, by norm_num⟩ : ℕ+)) 1 ⟨2, 2, 2⟩ := by
    rw [engineRun_step (by decide) (by decide)]
    rfl
  have e2 : engineRun 5 false false (fun _ => (⟨2, by norm_num⟩ : ℕ+)) 1 ⟨2, 2, 2⟩
      = engineRun 5 false false (fun _ => (⟨2, by norm_num⟩ : ℕ+)) 2 ⟨4, 4, 4⟩ := by
    rw [engineRun_step (by decide) (by decide)]
    rfl
  have e3 : engineRun 5 false false (fun _ => (⟨2, by norm_num⟩ : ℕ+)) 2 ⟨4, 4, 4⟩
      = ⟨6, 6, 6⟩ := by
    rw [engineRun_break (by decide) (by decide)]
    rfl
  rw [e1, e2, e3]
  norm_num

/-- C2 amended, witness: at `budget = 4`, `lambda_ = 2` the engine reports
`used_budget = 4 = budget` (2 divides 4). -/
theorem batch_used_budget_witness :
    (engineRun 4 false false (fun _ => (⟨2, by norm_num⟩ : ℕ+)) 0 ⟨0, 0, 0⟩).used = 4 := by
  have h := (batch_used_budget_least_multiple 4 false (⟨2, by norm_num⟩ : ℕ+)).2.2.2
  exact h.mpr (by norm_num)

/-- C5, counterexample: with TPA enabled (`budget = 5`, `lambda_ = 4`, batch
mode) the final generation's TPA block adds 2 evaluations after the traces
were extended, so the returned traces have length 4 while `used_budget = 6`. -/
theorem trace_length_tpa_counterexample :
    (engineRun 5 true false (fun _ => (⟨4, by norm_num⟩ : ℕ+)) 0 ⟨0, 0, 0⟩).fitLen ≠
      (engineRun 5 true false (fun _ => (⟨4, by norm_num⟩ : ℕ+)) 0 ⟨0, 0, 0⟩).used := by
  have e1 : engineRun 5 true false (fun _ => (⟨4, by norm_num⟩ : ℕ+)) 0 ⟨0, 0, 0⟩
      = engineRun 5 true false (fun _ => (⟨4, by norm_num⟩ : ℕ+)) 1 ⟨6, 4, 4⟩ := by
    rw [engineRun_step (by decide) (by decide)]
    rfl
  have e2 : engineRun 5 true false (fun _ => (⟨4, by norm_num⟩ : ℕ+)) 1 ⟨6, 4, 4⟩
      = ⟨6, 4, 4⟩ := engineRun_exit (by decide)
  rw [e1, e2]
  decide

/-- C5, amended: at every generation boundary and in the returned result the
trace lengths equal `used_budget` whenever TPA is disabled; with TPA enabled
the traces always agree with each other but may be up to 2 entries shorter
than `used_budget` (the final generation's TPA evaluations are never
appended). -/
theorem trace_lengths_vs_used_budget (budget : ℕ) (tpa seq : Bool) (evals : ℕ → ℕ+) :
    (tpa = false →
      (engineRun budget tpa seq evals 0 ⟨0, 0, 0⟩).fitLen
          = (engineRun budget tpa seq evals 0 ⟨0, 0, 0⟩).used ∧
        (engineRun budget tpa seq evals 0 ⟨0, 0, 0⟩).sigmaLen
          = (engineRun budget tpa seq evals 0 ⟨0, 0, 0⟩).used) ∧
      ((engineRun budget tpa seq evals 0 ⟨0, 0, 0⟩).fitLen
          ≤ (engineRun budget tpa seq evals 0 ⟨0, 0, 0⟩).used ∧
        (engineRun budget tpa seq evals 0 ⟨0, 0, 0⟩).used
          ≤ (engineRun budget tpa seq evals 0 ⟨0, 0, 0⟩).fitLen + 2 ∧
        (engineRun budget tpa seq evals 0 ⟨0, 0, 0⟩).sigmaLen
          = (engineRun budget tpa seq evals 0 ⟨0, 0, 0⟩).fitLen) := by
  constructor
  · rintro rfl
    exact engineRun_no_tpa_traces 0 ⟨0, 0, 0⟩ rfl rfl
  · exact engineRun_tpa_traces 0 ⟨0, 0, 0⟩ (by norm_num) (by norm_num) rfl

/-- C5 amended, witness: at `budget = 5`, `lambda_ = 2`, no TPA, both traces
end with length equal to the used budget. -/
theorem trace_lengths_witness :
    (engineRun 5 false false (fun _ => (⟨2, by norm_num⟩ : ℕ+)) 0 ⟨0, 0, 0⟩).fitLen
        = (engineRun 5 false false (fun _ => (⟨2, by norm_num⟩ : ℕ+)) 0 ⟨0, 0, 0⟩).used ∧
      (engineRun 5 false false (fun _ => (⟨2, by norm_num⟩ : ℕ+)) 0 ⟨0, 0, 0⟩).sigmaLen
        = (engineRun 5 false false (fun _ => (⟨2, by norm_num⟩ : ℕ+)) 0 ⟨0, 0, 0⟩).used :=
  (trace_lengths_vs_used_budget 5 false false (fun _ => (⟨2, by norm_num⟩ : ℕ+))).1 rfl

/-! ### Unfolding lemmas for `seqEval` -/

lemma seqEval_exit {fit : ℕ → ℚ} {best : ℚ} {cutoff budget len i used : ℕ} {imp : Bool}
    (h : ¬ i < len) :
    seqEval fit best cutoff budget len i used imp = (used, i) := by
  rw [seqEval]; exact dif_neg h

lemma seqEval_stop {fit : ℕ → ℚ} {best : ℚ} {cutoff budget len i used : ℕ} {imp : Bool}
    (h : i < len) (h2 : cutoff ≤ i ∧ (if fit i < best then true else imp) = true) :
    seqEval fit best cutoff budget len i used imp = (used + 1, i + 1) := by
  rw [seqEval, dif_pos h, if_pos h2]

lemma seqEval_budget_stop {fit : ℕ → ℚ} {best : ℚ} {cutoff budget len i used : ℕ}
    {imp : Bool} (h : i < len)
    (h2 : ¬ (cutoff ≤ i ∧ (if fit i < best then true else imp) = true))
    (h3 : used + 1 = budget) :
    seqEval fit best cutoff budget len i used imp = (used + 1, i + 1) := by
  rw [seqEval, dif_pos h, if_neg h2, if_pos h3]

lemma seqEval_cont {fit : ℕ → ℚ} {best : ℚ} {cutoff budget len i used : ℕ} {imp : Bool}
    (h : i < len)
    (h2 : ¬ (cutoff ≤ i ∧ (if fit i < best then true else imp) = true))
    (h3 : ¬ used + 1 = budget) :
    seqEval fit best cutoff budget len i used imp =
      seqEval fit best cutoff budget len (i + 1) (used + 1)
        (if fit i < best then true else imp) := by
  rw [seqEval, dif_pos h, if_neg h2, if_neg h3]

/-- Every evaluated offspring increments the used budget exactly once. -/
lemma seqEval_budget_count (fit : ℕ → ℚ) (best : ℚ) (cutoff budget len : ℕ) :
    ∀ (i used : ℕ) (imp : Bool),
      (seqEval fit best cutoff budget len i used imp).1 + i
        = used + (seqEval fit best cutoff budget len i used imp).2 := by
  intro i used imp
  induction i, used, imp using seqEval.induct fit best cutoff budget len with
  | case1 i used imp h imp1 h2 =>
    rw [seqEval_stop h h2]
    dsimp only
    omega
  | case2 i used imp h used1 imp1 h2 h3 =>
    rw [seqEval_budget_stop h h2 h3]
    dsimp only
    omega
  | case3 i used imp h used1 imp1 h2 h3 ih =>
    rw [seqEval_cont h h2 h3]
    have ih2 : (seqEval fit best cutoff budget len (i + 1) (used + 1)
          (if fit i < best then true else imp)).1 + (i + 1)
        = (used + 1) + (seqEval fit best cutoff budget len (i + 1) (used + 1)
          (if fit i < best then true else imp)).2 := ih
    omega
  | case4 i used imp h =>
    rw [seqEval_exit h]

/-- Once the improvement flag is set, the loop evaluates no offspring past
index `max i cutoff`. -/
lemma seqEval_flag_stops (fit : ℕ → ℚ) (best : ℚ) (cutoff budget len : ℕ) :
    ∀ (i used : ℕ) (imp : Bool), imp = true →
      (seqEval fit best cutoff budget len i used imp).2 ≤ max i cutoff + 1 := by
  intro i used imp
  induction i, used, imp using seqEval.induct fit best cutoff budget len with
  | case1 i used imp h imp1 h2 =>
    intro himp
    rw [seqEval_stop h h2]
    dsimp only
    omega
  | case2 i used imp h used1 imp1 h2 h3 =>
    intro himp
    rw [seqEval_budget_stop h h2 h3]
    dsimp only
    omega
  | case3 i used imp h used1 imp1 h2 h3 ih =>
    intro himp
    subst himp
    rw [seqEval_cont h h2 h3]
    have himp1 : (if fit i < best then true else true) = true := ite_self true
    have hic : i < cutoff := by
      by_contra hle
      exact h2 ⟨by omega, himp1⟩
    have hb : (seqEval fit best cutoff budget len (i + 1) (used + 1)
          (if fit i < best then true else true)).2 ≤ max (i + 1) cutoff + 1 :=
      ih himp1
    omega
  | case4 i used imp h =>
    intro himp
    rw [seqEval_exit h]
    dsimp only
    omega

/-- If an improving offspring sits at index `j`, the loop evaluates no
offspring past index `max j cutoff`. -/
lemma seqEval_improvement_stops (fit : ℕ → ℚ) (best : ℚ) (cutoff budget len : ℕ) :
    ∀ (i used : ℕ) (imp : Bool) (j : ℕ), i ≤ j → j < len → fit j < best →
      (seqEval fit best cutoff budget len i used imp).2 ≤ max j cutoff + 1 := by
  intro i used imp
  induction i, used, imp using seqEval.induct fit best cutoff budget len with
  | case1 i used imp h imp1 h2 =>
    intro j hij hjlen hfit
    rw [seqEval_stop h h2]
    dsimp only
    omega
  | case2 i used imp h used1 imp1 h2 h3 =>
    intro j hij hjlen hfit
    rw [seqEval_budget_stop h h2 h3]
    dsimp only
    omega
  | case3 i used imp h used1 imp1 h2 h3 ih =>
    intro j hij hjlen hfit
    rw [seqEval_cont h h2 h3]
    rcases Nat.lt_or_ge i j with hlt | hge
    · have hb : (seqEval fit best cutoff budget len (i + 1) (used + 1)
            (if fit i < best then true else imp)).2 ≤ max j cutoff + 1 :=
        ih j (by omega) hjlen hfit
      omega
    · have hij2 : i = j := by omega
      subst hij2
      have himp1 : (if fit i < best then true else imp) = true := if_pos hfit
      rw [himp1]
      have hic : i < cutoff := by
        by_contra hle
        exact h2 ⟨by omega, himp1⟩
      have hb := seqEval_flag_stops fit best cutoff budget len (i + 1) (used + 1) true rfl
      omega
  | case4 i used imp h =>
    intro j hij hjlen hfit
    rw [seqEval_exit h]
    dsimp only
    omega

/-- C4: in sequential evaluation mode, every mutated-and-evaluated offspring
increments `used_budget` exactly once, and as soon as the loop index has
reached `seq_cutoff` with an improving offspring already seen among indices
`≤ i`, no offspring beyond index `i` is mutated or evaluated (hence no
further budget is spent that generation). -/
theorem sequential_early_stop (fit : ℕ → ℚ) (best : ℚ) (cutoff budget len u0 : ℕ) :
    (seqEval fit best cutoff budget len 0 u0 false).1
        = u0 + (seqEval fit best cutoff budget len 0 u0 false).2 ∧
      ∀ i, cutoff ≤ i →
        (∃ j, j ≤ i ∧ j < len ∧ fit j < best) →
        (seqEval fit best cutoff budget len 0 u0 false).2 ≤ i + 1 := by
  constructor
  · have hb := seqEval_budget_count fit best cutoff budget len 0 u0 false
    omega
  · rintro i hci ⟨j, hji, hjlen, hfit⟩
    have hb := seqEval_improvement_stops fit best cutoff budget len 0 u0 false j
      (Nat.zero_le j) hjlen hfit
    omega

/-- C4, witness: cutoff 1, an improving offspring at index 0 — the loop stops
after evaluating offspring 1, with the used budget advanced accordingly. -/
theorem sequential_early_stop_witness :
    (1 ≤ 1 ∧ (0:ℚ) < 1) ∧
      (seqEval (fun j => if j = 0 then (0 : ℚ) else 5) 1 1 100 5 0 10 false).2 ≤ 2 :=
  ⟨⟨le_refl 1, by norm_num⟩,
    (sequential_early_stop (fun j => if j = 0 then (0 : ℚ) else 5) 1 1 100 5 10).2 1
      (le_refl 1) ⟨0, Nat.zero_le 1, by norm_num, by norm_num⟩⟩

/-! ### One-fifth rule -/

/-- C6: `oneFifthRule(t)` is a no-op unless `t` is a multiple of `n`; when it
acts it averages the success history over a window of `min t (10·n)` entries,
multiplies `sigma` by `c = 0.817` when the rate is strictly below `1/5`,
divides by `c` when strictly above, leaves `sigma` unchanged at exactly
`1/5`, and always copies the resulting `sigma` into `sigma_mean`. -/
theorem oneFifthRule_spec (st : OneFifthState) (t : ℕ)
    (hn : 1 ≤ st.n) (hN : st.bigN = 10 * st.n) (hc : st.c = 817/1000)
    (hlen : st.success_history.length = st.bigN) :
    (¬ t % st.n = 0 → oneFifthRule t st = st) ∧
      (t % st.n = 0 → 1 ≤ t →
        (oneFifthRule t st).sigma =
            (if (st.success_history.take (min t st.bigN)).sum / ((min t st.bigN : ℕ) : ℚ)
                < 1/5 then st.sigma * (817/1000)
             else if 1/5 <
                (st.success_history.take (min t st.bigN)).sum / ((min t st.bigN : ℕ) : ℚ)
             then st.sigma / (817/1000) else st.sigma) ∧
          (oneFifthRule t st).sigma_mean = (oneFifthRule t st).sigma ∧
          ((st.success_history.take (min t st.bigN)).sum / ((min t st.bigN : ℕ) : ℚ) = 1/5 →
            (oneFifthRule t st).sigma = st.sigma)) := by
  have hsucc : (if t < st.bigN then listMean (st.success_history.take t)
      else listMean st.success_history)
      = (st.success_history.take (min t st.bigN)).sum / ((min t st.bigN : ℕ) : ℚ) := by
    by_cases hlt : t < st.bigN
    · rw [if_pos hlt, Nat.min_eq_left hlt.le]
      unfold listMean
      rw [List.length_take, hlen, Nat.min_eq_left hlt.le]
    · rw [if_neg hlt, Nat.min_eq_right (Nat.le_of_not_lt hlt)]
      unfold listMean
      rw [List.take_of_length_le (le_of_eq hlen), hlen]
  refine ⟨?_, ?_⟩
  · intro h
    simp only [oneFifthRule, if_pos h]
  · intro ht h1
    have hcond : ¬ (t % st.n ≠ 0) := not_not_intro ht
    refine ⟨?_, ?_, ?_⟩
    · simp only [oneFifthRule, if_neg hcond]
      rw [hsucc, hc]
    · simp only [oneFifthRule, if_neg hcond]
    · intro hrate
      simp only [oneFifthRule, if_neg hcond]
      rw [hsucc, hrate]
      norm_num

/-- C6, witness: `n = 1`, all-successes history, `t = 10` — the rule acts,
and `sigma_mean` is set to the adapted `sigma`. -/
theorem oneFifthRule_witness :
    (10 % (1:ℕ) = 0 ∧ (1:ℕ) ≤ 10) ∧
      (oneFifthRule 10 ⟨1, 10, List.replicate 10 1, 817/1000, 2, 2⟩).sigma_mean
        = (oneFifthRule 10 ⟨1, 10, List.replicate 10 1, 817/1000, 2, 2⟩).sigma :=
  ⟨⟨by decide, by decide⟩,
    ((oneFifthRule_spec ⟨1, 10, List.replicate 10 1, 817/1000, 2, 2⟩ 10
        (by decide) (by decide) rfl (by simp)).2 (by decide) (by decide)).2.1⟩

/-! ### Mirrored sampling -/

lemma mirroredRun_even_state (base : ℕ → Fin n → ℚ) :
    ∀ k, (mirroredRun base (2 * k)).mirror_next = false ∧
      (mirroredRun base (2 * k)).idx = k := by
  intro k
  induction k with
  | zero => exact ⟨rfl, rfl⟩
  | succ k ih =>
    obtain ⟨h1, h2⟩ := ih
    have e : 2 * (k + 1) = (2 * k) + 1 + 1 := by ring
    rw [e]
    have s1 : mirroredRun base ((2 * k) + 1)
        = ⟨true, base (mirroredRun base (2 * k)).idx, (mirroredRun base (2 * k)).idx + 1⟩ := by
      show (mirroredNext base (mirroredRun base (2 * k))).2 = _
      simp [mirroredNext, h1]
    show (mirroredNext base (mirroredRun base ((2 * k) + 1))).2.mirror_next = false ∧
      (mirroredNext base (mirroredRun base ((2 * k) + 1))).2.idx = k + 1
    rw [s1]
    simp [mirroredNext, h2]

/-- C7: on a fresh `MirroredSampling`, odd-numbered calls (0-indexed: even
indices) return fresh base-sampler draws, and each following call returns the
exact elementwise negation of that cached vector; in particular the first
call returns `base 0` and the second returns its negation. -/
theorem mirrored_pairwise_negation (base : ℕ → Fin n → ℚ) :
    mirroredCall base 0 = base 0 ∧
      ∀ k, mirroredCall base (2 * k) = base k ∧
        mirroredCall base (2 * k + 1) = fun i => mirroredCall base (2 * k) i * (-1) := by
  have heven : ∀ k, mirroredCall base (2 * k) = base k := by
    intro k
    obtain ⟨h1, h2⟩ := mirroredRun_even_state base k
    show (mirroredNext base (mirroredRun base (2 * k))).1 = base k
    simp [mirroredNext, h1, h2]
  have hodd : ∀ k, mirroredCall base (2 * k + 1)
      = fun i => base k i * (-1) := by
    intro k
    obtain ⟨h1, h2⟩ := mirroredRun_even_state base k
    have s1 : mirroredRun base ((2 * k) + 1)
        = ⟨true, base (mirroredRun base (2 * k)).idx, (mirroredRun base (2 * k)).idx + 1⟩ := by
      show (mirroredNext base (mirroredRun base (2 * k))).2 = _
      simp [mirroredNext, h1]
    show (mirroredNext base (mirroredRun base ((2 * k) + 1))).1 = _
    rw [s1]
    simp [mirroredNext, h2]
  refine ⟨by simpa using heven 0, fun k => ⟨heven k, ?_⟩⟩
  rw [hodd k, heven k]

/-! ### IPOP scheduler -/

lemma ipopLambdas_cons (usedOf : ℕ → ℕ+) (k budget lam : ℕ) (h : 0 < budget) :
    ipopLambdas usedOf k budget lam
      = lam :: ipopLambdas usedOf (k + 1) (budget - (usedOf k : ℕ)) (lam * 2) := by
  rw [ipopLambdas]; exact dif_pos h

lemma ipopLambdas_nil (usedOf : ℕ → ℕ+) (k budget lam : ℕ) (h : ¬ 0 < budget) :
    ipopLambdas usedOf k budget lam = [] := by
  rw [ipopLambdas]; exact dif_neg h

lemma ipopLambdas_get? (usedOf : ℕ → ℕ+) :
    ∀ (m j budget lam : ℕ), m < (ipopLambdas usedOf j budget lam).length →
      (ipopLambdas usedOf j budget lam).get? m = some (lam * 2 ^ m) := by
  intro m
  induction m with
  | zero =>
    intro j budget lam h
    have hb : 0 < budget := by
      by_contra hb
      rw [ipopLambdas_nil usedOf j budget lam hb] at h
      simp at h
    rw [ipopLambdas_cons usedOf j budget lam hb]
    simp
  | succ m ih =>
    intro j budget lam h
    have hb : 0 < budget := by
      by_contra hb
      rw [ipopLambdas_nil usedOf j budget lam hb] at h
      simp at h
    rw [ipopLambdas_cons usedOf j budget lam hb] at h ⊢
    rw [List.get?_cons_succ]
    have h2 : m < (ipopLambdas usedOf (j + 1) (budget - (usedOf j : ℕ)) (lam * 2)).length := by
      simpa using h
    rw [ih (j + 1) (budget - (usedOf j : ℕ)) (lam * 2) h2]
    congr 1
    ring

/-- C9: under the IPOP restart strategy the `k`-th restart (the initial run
being restart 0) uses offspring count `lambda_init · 2^k`: the scheduler
doubles `lambda_` after every restart and never shrinks it. -/
theorem ipop_lambda_doubles (usedOf : ℕ → ℕ+) (budget lambdaInit k : ℕ)
    (h : k < (ipopLambdas usedOf 0 budget lambdaInit).length) :
    (ipopLambdas usedOf 0 budget lambdaInit).get ⟨k, h⟩ = lambdaInit * 2 ^ k := by
  have hq := ipopLambdas_get? usedOf k 0 budget lambdaInit h
  rw [List.get?_eq_get h] at hq
  exact Option.some.inj hq

lemma ipopDemoLen :
    2 < (ipopLambdas (fun _ => (⟨1, by norm_num⟩ : ℕ+)) 0 3 2).length := by
  have e1 : ipopLambdas (fun _ => (⟨1, by norm_num⟩ : ℕ+)) 0 3 2
      = 2 :: ipopLambdas (fun _ => (⟨1, by norm_num⟩ : ℕ+)) 1 2 4 :=
    ipopLambdas_cons _ 0 3 2 (by norm_num)
  have e2 : ipopLambdas (fun _ => (⟨1, by norm_num⟩ : ℕ+)) 1 2 4
      = 4 :: ipopLambdas (fun _ => (⟨1, by norm_num⟩ : ℕ+)) 2 1 8 :=
    ipopLambdas_cons _ 1 2 4 (by norm_num)
  have e3 : ipopLambdas (fun _ => (⟨1, by norm_num⟩ : ℕ+)) 2 1 8
      = 8 :: ipopLambdas (fun _ => (⟨1, by norm_num⟩ : ℕ+)) 3 0 16 :=
    ipopLambdas_cons _ 2 1 8 (by norm_num)
  have e4 : ipopLambdas (fun _ => (⟨1, by norm_num⟩ : ℕ+)) 3 0 16 = [] :=
    ipopLambdas_nil _ 3 0 16 (by norm_num)
  rw [e1, e2, e3, e4]
  simp

/-- C9, witness: `lambda_init = 2`, three restarts fit in budget 3; restart 2
uses `lambda_ = 2 · 2² = 8`. -/
theorem ipop_lambda_doubles_witness :
    (ipopLambdas (fun _ => (⟨1, by norm_num⟩ : ℕ+)) 0 3 2).get ⟨2, ipopDemoLen⟩
      = 2 * 2 ^ 2 :=
  ipop_lambda_doubles (fun _ => (⟨1, by norm_num⟩ : ℕ+)) 3 2 2 ipopDemoLen

/-! ### Degeneracy checks: C1 and C10 -/

lemma sigmaRange_one : sigmaRange (1 : ℝ) := by
  constructor
  · rw [loBound]
    norm_num
  · rw [hiBound]
    norm_num

lemma checkDegenerated_valid (chk : FloatChecks m) (st : Params m)
    (hFin : chk.allFinite 1 = true) (hEig : chk.sqrtEigAllReal 1 = true) :
    cmsaValid chk (checkDegenerated chk st) := by
  unfold checkDegenerated
  by_cases h1 : chk.allFinite st.C = false
  · rw [if_pos h1]
    exact ⟨hFin, sigmaRange_one, hEig⟩
  · rw [if_neg h1]
    by_cases h2 : ¬ sigmaRange st.sigma_mean
    · rw [if_pos h2]
      exact ⟨hFin, sigmaRange_one, hEig⟩
    · rw [if_neg h2]
      by_cases h3 : chk.sqrtEigAllReal st.C = false
      · rw [if_pos h3]
        exact ⟨hFin, sigmaRange_one, hEig⟩
      · rw [if_neg h3]
        refine ⟨?_, not_not.mp h2, ?_⟩
        · show chk.allFinite st.C = true
          cases hb : chk.allFinite st.C with
          | false => exact absurd hb h1
          | true => rfl
        · show chk.sqrtEigAllReal st.C = true
          cases hb : chk.sqrtEigAllReal st.C with
          | false => exact absurd hb h3
          | true => rfl

lemma checkCholeskyDegenerated_valid (chk : FloatChecks m) (st : Params m)
    (hFin : chk.allFinite 1 = true)
    (hCond : loBound < chk.cond 1 ∧ chk.cond 1 < hiBound) :
    cholValid chk (checkCholeskyDegenerated chk st) := by
  unfold checkCholeskyDegenerated
  by_cases h1 : chk.allFinite st.A = false
  · rw [if_pos h1]
    exact ⟨hFin, hCond, sigmaRange_one⟩
  · rw [if_neg h1]
    by_cases h2 : ¬ (loBound < chk.cond st.A ∧ chk.cond st.A < hiBound)
    · rw [if_pos h2]
      exact ⟨hFin, hCond, sigmaRange_one⟩
    · rw [if_neg h2]
      by_cases h3 : ¬ sigmaRange st.sigma_mean
      · rw [if_pos h3]
        exact ⟨hFin, hCond, sigmaRange_one⟩
      · rw [if_neg h3]
        refine ⟨?_, not_not.mp h2, not_not.mp h3⟩
        cases hb : chk.allFinite st.A with
        | false => exact absurd hb h1
        | true => rfl

/-- C1: after any of the three adaptation calls, the covariance/Cholesky
representation is numerically valid (per the corresponding degeneracy
check's own criteria) or has been reset within that call; the hypotheses
state only numpy facts about the identity matrix (finite entries, condition
number 1, real eigenvalues).  In fact the stronger left disjunct always
holds: the trailing check restores validity whenever it resets. -/
theorem adaptation_valid_or_reset (chk : FloatChecks m) (st : Params m)
    (hFin : chk.allFinite 1 = true)
    (hCond : loBound < chk.cond 1 ∧ chk.cond 1 < hiBound)
    (hEig : chk.sqrtEigAllReal 1 = true) :
    (cmsaValid chk (adaptCovarianceMatrix chk st)
        ∨ cmsaResetState (adaptCovarianceMatrix chk st)) ∧
      (cholValid chk (adaptCholeskyCovarianceMatrix chk st)
        ∨ cholResetState (adaptCholeskyCovarianceMatrix chk st)) ∧
      (cholValid chk (adaptActiveCovarianceMatrix chk st)
        ∨ cholResetState (adaptActiveCovarianceMatrix chk st)) := by
  refine ⟨Or.inl ?_, Or.inl ?_, Or.inl ?_⟩
  · unfold adaptCovarianceMatrix
    exact checkDegenerated_valid chk _ hFin hEig
  · unfold adaptCholeskyCovarianceMatrix
    exact checkCholeskyDegenerated_valid chk _ hFin hCond
  · unfold adaptActiveCovarianceMatrix
    exact checkCholeskyDegenerated_valid chk _ hFin hCond

/-- C1, witness: the trivial checks environment and a concrete state. -/
theorem adaptation_valid_or_reset_witness :
    (chkDemo.allFinite 1 = true ∧
        (loBound < chkDemo.cond 1 ∧ chkDemo.cond 1 < hiBound) ∧
        chkDemo.sqrtEigAllReal 1 = true) ∧
      (cmsaValid chkDemo (adaptCovarianceMatrix chkDemo negDemoState)
        ∨ cmsaResetState (adaptCovarianceMatrix chkDemo negDemoState)) := by
  have hCond : loBound < chkDemo.cond 1 ∧ chkDemo.cond 1 < hiBound := by
    constructor
    · show loBound < 1
      rw [loBound]
      norm_num
    · show (1 : ℝ) < hiBound
      rw [hiBound]
      norm_num
  exact ⟨⟨rfl, hCond, rfl⟩,
    (adaptation_valid_or_reset chkDemo negDemoState rfl hCond rfl).1⟩

/-- C10: when `checkCholeskyDegenerated` (the check that
`adaptActiveCovarianceMatrix` invokes) detects degeneracy, it resets exactly
`sigma_mean`, `p_success`, `A` and `p_c`, and leaves every other field —
in particular `A_inv`, `s`, `sigma` and the fitness history — unchanged; so
afterwards `A` is the identity while `A_inv` keeps its old value and
`A · A_inv` need not be the identity. -/
theorem checkCholeskyDegenerated_frame (chk : FloatChecks m) (st : Params m)
    (hdeg : chk.allFinite st.A = false
      ∨ ¬ (loBound < chk.cond st.A ∧ chk.cond st.A < hiBound)
      ∨ ¬ sigmaRange st.sigma_mean) :
    checkCholeskyDegenerated chk st
      = { st with sigma_mean := 1, p_success := st.p_target, A := 1, p_c := 0 } := by
  unfold checkCholeskyDegenerated
  by_cases h1 : chk.allFinite st.A = false
  · rw [if_pos h1]
  · rw [if_neg h1]
    by_cases h2 : ¬ (loBound < chk.cond st.A ∧ chk.cond st.A < hiBound)
    · rw [if_pos h2]
    · rw [if_neg h2]
      have h3 : ¬ sigmaRange st.sigma_mean := by
        rcases hdeg with h | h | h
        · exact absurd h h1
        · exact absurd h h2
        · exact h
      rw [if_pos h3]

/-- C10, witness: `sigma_mean = 10^17` is degenerate; the check resets the
four fields and keeps `A_inv = 2` (so `A · A_inv ≠ 1`). -/
theorem checkCholeskyDegenerated_frame_witness :
    (¬ sigmaRange degenDemoState.sigma_mean) ∧
      checkCholeskyDegenerated chkDemo degenDemoState
        = { degenDemoState with
            sigma_mean := 1
            p_success := degenDemoState.p_target
            A := 1
            p_c := 0 } := by
  have hns : ¬ sigmaRange degenDemoState.sigma_mean := by
    intro hcontra
    have h2 := hcontra.2
    rw [show degenDemoState.sigma_mean = (10 : ℝ) ^ (17 : ℕ) from rfl, hiBound] at h2
    norm_num at h2
  exact ⟨hns,
    checkCholeskyDegenerated_frame chkDemo degenDemoState (Or.inr (Or.inr hns))⟩

/-! ### The active-CMA negative Cholesky update: C3 -/

/-- C3, amended: the negative-update assignment to `A_inv` computes the
elementwise form — `b` divided pointwise by the matrix
`a² + a·b·‖w‖²·(w·(wᵀ·A_inv))` — not the positive-update pattern in which
`b/(a² + a·b·‖w‖²)` scales the whole rank-one term. -/
theorem negative_ainv_elementwise (m : ℕ) (st : Params m)
    (hcond : 4 < st.fitness_history.length ∧
      st.fitness_history.getLastD 0 < st.best_fitness) :
    (activeNegativeStep st).A_inv = elementwiseNegativeAinv st := by
  unfold activeNegativeStep elementwiseNegativeAinv
  rw [if_pos hcond]

/-- C3, counterexample: a concrete `n = 1` state reaching the negative-update
branch (`A_inv = 2`, `s = 1`, `‖last_z‖² = 18`, stored `c_cov_neg = 0`, so
`a = √(6/5)` and `b = a/18`) on which the assigned `A_inv` differs from the
canonical positive-update scoping. -/
theorem negative_ainv_counterexample :
    (4 < negDemoState.fitness_history.length ∧
        negDemoState.fitness_history.getLastD 0 < negDemoState.best_fitness) ∧
      (activeNegativeStep negDemoState).A_inv ≠ canonicalNegativeAinv negDemoState := by
  have hcond : 4 < negDemoState.fitness_history.length ∧
      negDemoState.fitness_history.getLastD 0 < negDemoState.best_fitness :=
    ⟨by show (4:ℕ) < 5; norm_num, by show (0:ℝ) < 1; norm_num⟩
  refine ⟨hcond, ?_⟩
  intro heq
  have h00 : (activeNegativeStep negDemoState).A_inv 0 0
      = canonicalNegativeAinv negDemoState 0 0 := by rw [heq]
  unfold activeNegativeStep canonicalNegativeAinv at h00
  rw [if_pos hcond] at h00
  simp only [negDemoState, Matrix.of_apply, Matrix.mul_apply, Matrix.transpose_apply,
    Fin.sum_univ_one, Nat.cast_one, Real.one_rpow, Matrix.sub_apply, Matrix.smul_apply,
    smul_eq_mul] at h00
  have h18 : Real.sqrt 18 ^ 2 = 18 := Real.sq_sqrt (by norm_num)
  have hz : rowNorm (Matrix.of (fun _ _ => Real.sqrt 18) : RowVec 1) ^ 2 = 18 := by
    unfold rowNorm
    simp only [Matrix.of_apply, Fin.sum_univ_one]
    rw [h18, h18]
  rw [hz] at h00
  have hcol : colNorm ((Matrix.of (fun _ _ => (2:ℝ)))
      * ((Matrix.of (fun _ _ => (1:ℝ)) : RowVec 1)).transpose) ^ 2 = 4 := by
    unfold colNorm
    simp only [Matrix.mul_apply, Matrix.of_apply, Matrix.transpose_apply, Fin.sum_univ_one]
    rw [Real.sq_sqrt (by norm_num)]
    norm_num
  rw [hcol] at h00
  norm_num at h00
  have h4 : Real.sqrt 4 = 2 := by
    rw [show (4:ℝ) = 2 ^ 2 by norm_num]
    exact Real.sqrt_sq (by norm_num)
  rw [h4] at h00
  have ha2 : (Real.sqrt 6 / Real.sqrt 5) ^ 2 = 6 / 5 := by
    rw [div_pow, Real.sq_sqrt (by norm_num), Real.sq_sqrt (by norm_num)]
  have hapos : 0 < Real.sqrt 6 / Real.sqrt 5 := by positivity
  rw [ha2] at h00
  norm_num at h00
  have haa : Real.sqrt 6 / Real.sqrt 5 * (Real.sqrt 6 / Real.sqrt 5 / 18) = 1 / 15 := by
    have he : Real.sqrt 6 / Real.sqrt 5 * (Real.sqrt 6 / Real.sqrt 5 / 18)
        = (Real.sqrt 6 / Real.sqrt 5) ^ 2 / 18 := by ring
    rw [he, ha2]
    norm_num
  rw [haa] at h00
  norm_num at h00
  nlinarith [hapos, h00]

/-- C3 amended, witness. -/
theorem negative_ainv_elementwise_witness :
    (4 < negDemoState.fitness_history.length ∧
        negDemoState.fitness_history.getLastD 0 < negDemoState.best_fitness) ∧
      (activeNegativeStep negDemoState).A_inv = elementwiseNegativeAinv negDemoState := by
  have hcond : 4 < negDemoState.fitness_history.length ∧
      negDemoState.fitness_history.getLastD 0 < negDemoState.best_fitness := by
    constructor
    · show (4 : ℕ) < 5
      norm_num
    · show (0 : ℝ) < 1
      norm_num
  exact ⟨hcond, negative_ainv_elementwise 1 negDemoState hcond⟩

/-! ### Orthogonal sampling: C8 -/

lemma dotp_comm (v w : Vec m) : dotp v w = dotp w v := by
  unfold dotp
  exact Finset.sum_congr rfl fun i _ => mul_comm _ _

lemma vnorm_nonneg (v : Vec m) : 0 ≤ vnorm v := Real.sqrt_nonneg _

lemma vnorm_sq (v : Vec m) : vnorm v ^ 2 = dotp v v := by
  unfold vnorm dotp
  rw [Real.sq_sqrt (Finset.sum_nonneg fun i _ => sq_nonneg _)]
  exact Finset.sum_congr rfl fun i _ => by ring

lemma dotp_gsStep (u w x : Vec m) :
    dotp (gsStep u w) x = dotp u x - (dotp u w / vnorm w ^ 2) * dotp w x := by
  unfold gsStep
  show dotp (u - (dotp u w / vnorm w ^ 2) • w) x = _
  unfold dotp
  simp only [Pi.sub_apply, Pi.smul_apply, smul_eq_mul, sub_mul]
  rw [Finset.sum_sub_distrib]
  congr 1
  rw [Finset.mul_sum]
  exact Finset.sum_congr rfl fun i _ => by ring

lemma gsAux_zero (v : ℕ → Vec m) (i : ℕ) : gsAux v i 0 = v i := by
  rw [gsAux]

lemma gsAux_succ (v : ℕ → Vec m) {i j : ℕ} (h : j < i) :
    gsAux v i (j + 1) = gsStep (gsAux v i j) (gsFinal v j) := by
  rw [gsAux, if_pos h]
  rfl

/-- Exact-arithmetic orthogonality of the double loop of `__gramSchmidt`:
provided no earlier vector has collapsed to zero, vector `i` is orthogonal
to every earlier one after its processing. -/
lemma gsFinal_orth (v : ℕ → Vec m) :
    ∀ i, (∀ t, t < i → dotp (gsFinal v t) (gsFinal v t) ≠ 0) →
      ∀ j, j < i → dotp (gsFinal v i) (gsFinal v j) = 0 := by
  intro i
  induction i using Nat.strong_induction_on with
  | _ i IH =>
    intro hnz j hj
    have inner : ∀ t, t ≤ i → ∀ j2, j2 < t →
        dotp (gsAux v i t) (gsFinal v j2) = 0 := by
      intro t
      induction t with
      | zero =>
        intro _ j2 hj2
        exact absurd hj2 (Nat.not_lt_zero _)
      | succ t iht =>
        intro ht j2 hj2
        have hti : t < i := ht
        rw [gsAux_succ v hti, dotp_gsStep]
        rcases Nat.lt_or_ge j2 t with hlt | hge
        · rw [iht (by omega) j2 hlt,
            IH t hti (fun t2 ht2 => hnz t2 (by omega)) j2 hlt]
          ring
        · have hj2t : j2 = t := by omega
          subst hj2t
          rw [vnorm_sq]
          rw [div_mul_cancel₀ _ (hnz j2 (by omega)), sub_self]
    exact inner i (le_refl i) j hj

lemma vnorm_ne_of_dotp (v : Vec m) (h : dotp v v ≠ 0) : vnorm v ≠ 0 := by
  intro h0
  apply h
  rw [← vnorm_sq, h0]
  norm_num

lemma servedVec_eq_smul (v rep : ℕ → Vec m) (i : ℕ)
    (h : ¬ vnorm (gsFinal v i) = 0) :
    servedVec v rep i = (vnorm (v i) / vnorm (gsFinal v i)) • gsFinal v i := by
  unfold servedVec normedVec
  rw [if_neg h]
  funext idx
  simp only [Pi.smul_apply, smul_eq_mul]
  ring

lemma dotp_smul (c d : ℝ) (u w : Vec m) :
    dotp (c • u) (d • w) = c * d * dotp u w := by
  unfold dotp
  simp only [Pi.smul_apply, smul_eq_mul]
  rw [Finset.mul_sum]
  exact Finset.sum_congr rfl fun i _ => by ring

lemma vnorm_smul (c : ℝ) (u : Vec m) : vnorm (c • u) = |c| * vnorm u := by
  unfold vnorm
  have he : ∑ i, (c • u) i ^ 2 = c ^ 2 * ∑ i, u i ^ 2 := by
    rw [Finset.mul_sum]
    exact Finset.sum_congr rfl fun i _ => by
      simp only [Pi.smul_apply, smul_eq_mul]
      ring
  rw [he, Real.sqrt_mul (sq_nonneg c), Real.sqrt_sq_eq_abs]

/-- C8, amended: for a batch of `k = min lambda_ n` vectors, if Gram-Schmidt
produces no zero vector then the served vectors are pairwise orthogonal
exactly, and each served vector's norm equals the recorded
pre-orthonormalization length of the corresponding base draw.  (When a
vector does collapse to zero it is replaced by a fresh normalized draw that
is not orthogonalized, so orthogonality can fail — see the
counterexample.) -/
theorem orthogonal_batch_properties (v rep : ℕ → Vec m) (lambda i j : ℕ)
    (hij : i < j) (hj : j < min lambda m)
    (hnz : ∀ t, t < min lambda m → dotp (gsFinal v t) (gsFinal v t) ≠ 0) :
    dotp (servedVec v rep i) (servedVec v rep j) = 0 ∧
      ∀ t, t < min lambda m → vnorm (servedVec v rep t) = vnorm (v t) := by
  constructor
  · have hni : ¬ vnorm (gsFinal v i) = 0 := vnorm_ne_of_dotp _ (hnz i (by omega))
    have hnj : ¬ vnorm (gsFinal v j) = 0 := vnorm_ne_of_dotp _ (hnz j hj)
    rw [servedVec_eq_smul v rep i hni, servedVec_eq_smul v rep j hnj, dotp_smul,
      dotp_comm, gsFinal_orth v j (fun t ht => hnz t (by omega)) i hij]
    ring
  · intro t ht
    have hnt : ¬ vnorm (gsFinal v t) = 0 := vnorm_ne_of_dotp _ (hnz t ht)
    rw [servedVec_eq_smul v rep t hnt, vnorm_smul, abs_div,
      abs_of_nonneg (vnorm_nonneg _), abs_of_nonneg (vnorm_nonneg _),
      div_mul_cancel₀ _ hnt]

/-- C8, counterexample: two identical base draws make Gram-Schmidt produce a
zero vector, which is replaced by a fresh (non-orthogonalized) draw; the
resulting pair of served vectors is not orthogonal, with `lambda_ = n = 2`,
`k = 2`. -/
theorem orthogonal_batch_counterexample :
    (1 < min 2 2) ∧
      dotp (servedVec vDemo repDemo 0) (servedVec vDemo repDemo 1) ≠ 0 := by
  refine ⟨by norm_num, ?_⟩
  have hg0 : gsFinal vDemo 0 = vDemo 0 := gsAux_zero vDemo 0
  have hnv0 : vnorm (vDemo 0) = 1 := by
    unfold vnorm vDemo
    rw [show ∑ idx : Fin 2, (if idx = 0 then (1:ℝ) else 0) ^ 2 = 1 from by
      rw [Fin.sum_univ_two]; norm_num]
    exact Real.sqrt_one
  have hdot10 : dotp (vDemo 1) (vDemo 0) = 1 := by
    unfold dotp vDemo
    rw [Fin.sum_univ_two]
    norm_num
  have hg1 : gsFinal vDemo 1 = 0 := by
    show gsAux vDemo 1 1 = 0
    rw [show (1 : ℕ) = 0 + 1 from rfl, gsAux_succ vDemo (by norm_num : 0 < 1),
      gsAux_zero, hg0]
    unfold gsStep
    rw [hdot10, hnv0, show vDemo 1 = vDemo 0 from rfl]
    norm_num
  have hv1 : vnorm (gsFinal vDemo 1) = 0 := by
    rw [hg1]
    unfold vnorm
    rw [show ∑ idx : Fin 2, ((0 : Vec 2) idx) ^ 2 = 0 from by
      rw [Fin.sum_univ_two]; norm_num]
    exact Real.sqrt_zero
  have hnrep : vnorm (repDemo 1) = 5 := by
    unfold vnorm repDemo
    rw [show ∑ idx : Fin 2, (if idx = 0 then (3:ℝ) else 4) ^ 2 = 25 from by
      rw [Fin.sum_univ_two]; norm_num]
    rw [show (25:ℝ) = 5 ^ 2 by norm_num]
    exact Real.sqrt_sq (by norm_num)
  have hc0 : ¬ (vnorm (gsFinal vDemo 0) = 0) := by
    rw [hg0, hnv0]
    norm_num
  have hnv1 : vnorm (vDemo 1) = 1 := hnv0
  unfold servedVec normedVec
  rw [if_neg hc0, if_pos hv1]
  unfold dotp
  rw [Fin.sum_univ_two]
  simp only [hg0, hnv0, hnv1, hnrep]
  unfold vDemo repDemo
  norm_num

/-- C8 amended, witness: two orthonormal base draws pass through unchanged;
the served pair is orthogonal and norm-preserving. -/
theorem orthogonal_batch_witness :
    dotp (servedVec vOrth repDemo 0) (servedVec vOrth repDemo 1) = 0 ∧
      vnorm (servedVec vOrth repDemo 0) = vnorm (vOrth 0) := by
  have hg0 : gsFinal vOrth 0 = vOrth 0 := gsAux_zero vOrth 0
  have hdot10 : dotp (vOrth 1) (vOrth 0) = 0 := by
    unfold dotp vOrth
    rw [Fin.sum_univ_two]
    norm_num
  have hnv0 : vnorm (vOrth 0) = 1 := by
    unfold vnorm vOrth
    rw [show ∑ idx : Fin 2, (if (0:ℕ) = 0 then (if idx = 0 then (1:ℝ) else 0)
        else (if idx = 1 then 1 else 0)) ^ 2 = 1 from by
      rw [Fin.sum_univ_two]; norm_num]
    exact Real.sqrt_one
  have hg1 : gsFinal vOrth 1 = vOrth 1 := by
    show gsAux vOrth 1 1 = vOrth 1
    rw [show (1 : ℕ) = 0 + 1 from rfl, gsAux_succ vOrth (by norm_num : 0 < 1),
      gsAux_zero, hg0]
    unfold gsStep
    rw [hdot10]
    norm_num
  have hd0 : dotp (gsFinal vOrth 0) (gsFinal vOrth 0) ≠ 0 := by
    rw [hg0, ← vnorm_sq, hnv0]
    norm_num
  have hd1 : dotp (gsFinal vOrth 1) (gsFinal vOrth 1) ≠ 0 := by
    rw [hg1]
    unfold dotp vOrth
    rw [Fin.sum_univ_two]
    norm_num
  have h := orthogonal_batch_properties vOrth repDemo 2 0 1 (by norm_num) (by norm_num)
    (by
      intro t ht
      have ht2 : t < 2 := by omega
      interval_cases t
      · exact hd0
      · exact hd1)
  exact ⟨h.1, h.2 0 (by norm_num)⟩

end ModEA
